import Mathlib

set_option maxHeartbeats 1000000

/-!
Verification development for the Lumina coding-assistant engine.

The definitions below are a shallow embedding of the repository's Python
sources (`tools.py`, `action_history.py`, `agent.py`, `working_memory.py`,
`persistent_memory.py`).  The filesystem is modelled as a partial map from
paths to file contents; OS-level failures (disk errors, permission errors)
are outside the model, so operations that only Python exceptions could make
fail are total here.  Wall-clock timestamps are threaded as explicit
parameters.
-/

namespace Lumina

/-! Python string primitives used by `apply_code_change` and its undo:
`pat in s` and `s.replace(old, new, 1)`, modelled over character lists. -/

/-- Index of the first occurrence of `pat` in `s`, scanning left to right;
`none` when `pat` does not occur.  Matches Python `s.find(pat)` (with `some`
for a nonnegative result); for the empty pattern the result is `some 0`,
matching Python where `"" in s` is always true and occurs first at index 0. -/
def firstIdx (pat : List Char) : List Char → Option Nat
  | [] => if pat.isPrefixOf ([] : List Char) then some 0 else none
  | c :: s => if pat.isPrefixOf (c :: s) then some 0 else (firstIdx pat s).map (fun n => n + 1)

/-- Python `pat in s` for strings. -/
def pyContains (s pat : String) : Bool := (firstIdx pat.data s.data).isSome

/-- First-occurrence index at the string level. -/
def strFirstIdx (pat s : String) : Option Nat := firstIdx pat.data s.data

/-- Python `s.replace(old, new, 1)`: replace the first occurrence of `old`
by `new`; when `old` is empty this inserts `new` at the front, exactly as
Python does for `count=1`. -/
def pyReplaceFirst (s old new : String) : String :=
  match firstIdx old.data s.data with
  | none => s
  | some i => ⟨s.data.take i ++ new.data ++ s.data.drop (i + old.data.length)⟩

/-! Filesystem model and result type. -/

/-- Result status of a tool invocation (`"status"` key of the Python result
dictionaries). -/
inductive RStatus where
  | success
  | error
  | cancelled
deriving DecidableEq

/-- A tool result: the `status` and `message` keys of the Python result
dictionary (the `content` payload of read-only tools is not needed by any
property proved here). -/
structure ToolResult where
  status : RStatus
  message : String
deriving DecidableEq

/-- The filesystem: a file path is mapped to its content when the file
exists, `none` otherwise. -/
def FS : Type := String → Option String

/-- Writing a file (Python `open(p, 'w')` followed by a full write; creates
the file when absent, truncates and overwrites when present). -/
def fsSet (fs : FS) (p c : String) : FS := fun q => if q = p then some c else fs q

/-- Removing a file (Python `os.remove`). -/
def fsRemove (fs : FS) (p : String) : FS := fun q => if q = p then none else fs q

/-- The empty filesystem. -/
def fsEmpty : FS := fun _ => none

/-- Backup path `f"{filepath}.bak.{timestamp}"` built by `tools._create_backup`. -/
def backupPath (p ts : String) : String := p ++ ".bak." ++ ts

/-- Models `tools._create_backup`: when the file exists, copy it to the
timestamped backup path.  `shutil.copy2` failures are OS-level and outside
the model, so the backup always succeeds here (in the source a backup
failure aborts the calling operation before any mutation). -/
def createBackup (fs : FS) (p ts : String) : FS :=
  match fs p with
  | some c => fsSet fs (backupPath p ts) c
  | none => fs

/-- True when `os.path.splitext(p)` yields a nonempty extension: the
basename (text after the last slash) has a dot with at least one non-dot
character before it, per CPython's `posixpath.splitext`. -/
def pyHasExt (p : String) : Bool :=
  let base := (p.data.reverse.takeWhile (fun c => c ≠ '/')).reverse
  if base.contains '.' then
    ((base.reverse.dropWhile (fun c => c ≠ '.')).drop 1).any (fun c => c ≠ '.')
  else false

/-- Models `tools.read_file`: the content of `p`, else — when `p` carries no
extension — the content of `p ++ ".py"` (the source's fallback); `none`
models the error-dictionary outcome. -/
def read_file (fs : FS) (p : String) : Option String :=
  match fs p with
  | some c => some c
  | none => if pyHasExt p then none else fs (p ++ ".py")

/-- Models `tools.write_file`: backup, then create-or-overwrite. -/
def write_file (fs : FS) (p c ts : String) : ToolResult × FS :=
  let fs1 := createBackup fs p ts
  (⟨.success, "File " ++ p ++ " written successfully."⟩, fsSet fs1 p c)

/-- Models `tools.delete_file`: backup, then `os.remove`, which raises
`FileNotFoundError` (caught, giving an error result) when the file is
absent. -/
def delete_file (fs : FS) (p ts : String) : ToolResult × FS :=
  let fs1 := createBackup fs p ts
  match fs1 p with
  | none => (⟨.error, "File not found: " ++ p⟩, fs1)
  | some _ => (⟨.success, "File " ++ p ++ " deleted successfully."⟩, fsRemove fs1 p)

/-- Models `tools.clear_file_content`: backup, then `open(p, 'w')` with
`truncate(0)`.  Note `open(p, 'w')` creates the file when absent, so this
succeeds (leaving an empty file) even for a previously nonexistent path. -/
def clear_file_content (fs : FS) (p ts : String) : ToolResult × FS :=
  let fs1 := createBackup fs p ts
  (⟨.success, "Content of " ++ p ++ " cleared successfully."⟩, fsSet fs1 p "")

/-- Models `tools.apply_code_change`: backup, read, fail when `old_code` is
absent, else replace its first occurrence by `new_code` and write back. -/
def apply_code_change (fs : FS) (p oldCode newCode ts : String) : ToolResult × FS :=
  let fs1 := createBackup fs p ts
  match fs1 p with
  | none => (⟨.error, "File not found: " ++ p⟩, fs1)
  | some content =>
    if pyContains content oldCode then
      (⟨.success, "Code change applied successfully to " ++ p ++ "."⟩,
        fsSet fs1 p (pyReplaceFirst content oldCode newCode))
    else
      (⟨.error, "Old code not found in " ++ p ++ ". No change applied."⟩, fs1)

/-! Action log (`action_history.py`) and the wrapped destructive tools of
`ToolExecutionSystem` (`tools.py`).  The history list keeps the most recent
record at the head, so Python's `history.append` / `history.pop()` become
cons / head here. -/

/-- One reversible action record: `{'type': ..., 'details': ...}` with the
kind-specific detail bag (`action_history.ActionHistory.record_action`). -/
inductive ActionRecord where
  | writeRec (filepath : String) (originalContent : Option String)
  | deleteRec (filepath : String) (originalContent : Option String)
  | clearRec (filepath : String) (originalContent : Option String)
  | applyRec (filepath oldCode newCode : String)
deriving DecidableEq

/-- State threaded through tool dispatch: the filesystem, the Action Log
(most recent record first), the log of shell commands actually handed to the
subprocess layer (the externally visible side effect of `run_command`), and
the number of confirmation questions asked so far. -/
structure AgentState where
  fs : FS
  history : List ActionRecord
  commandsRun : List String
  confirmCount : Nat

/-- Models `ToolExecutionSystem._wrapped_write_file`: capture the prior
content (via `os.path.exists` plus `read_file`), run the tool, and record an
action on success. -/
def wrappedWriteFile (st : AgentState) (p c ts : String) : ToolResult × AgentState :=
  let original := if (st.fs p).isSome then read_file st.fs p else none
  let r := write_file st.fs p c ts
  if r.1.status = .success then
    (r.1, { st with fs := r.2, history := .writeRec p original :: st.history })
  else
    (r.1, { st with fs := r.2 })

/-- Models `ToolExecutionSystem._wrapped_delete_file`. -/
def wrappedDeleteFile (st : AgentState) (p ts : String) : ToolResult × AgentState :=
  let original := if (st.fs p).isSome then read_file st.fs p else none
  let r := delete_file st.fs p ts
  if r.1.status = .success then
    (r.1, { st with fs := r.2, history := .deleteRec p original :: st.history })
  else
    (r.1, { st with fs := r.2 })

/-- Models `ToolExecutionSystem._wrapped_clear_file_content`. -/
def wrappedClearFileContent (st : AgentState) (p ts : String) : ToolResult × AgentState :=
  let original := if (st.fs p).isSome then read_file st.fs p else none
  let r := clear_file_content st.fs p ts
  if r.1.status = .success then
    (r.1, { st with fs := r.2, history := .clearRec p original :: st.history })
  else
    (r.1, { st with fs := r.2 })

/-- Models `ToolExecutionSystem._wrapped_apply_code_change`. -/
def wrappedApplyCodeChange (st : AgentState) (p oldCode newCode ts : String) :
    ToolResult × AgentState :=
  let r := apply_code_change st.fs p oldCode newCode ts
  if r.1.status = .success then
    (r.1, { st with fs := r.2, history := .applyRec p oldCode newCode :: st.history })
  else
    (r.1, { st with fs := r.2 })

/-- Models `tools.undo_last_action`.  The most recent record is popped
first (`pop_last_action`) and is never pushed back, so a failing reversal
still consumes it.  Branch notes, mirroring the Python control flow:
- `write_file` with no prior content: `os.remove`, which errors when the
  file is gone;
- `delete_file` with no recorded prior content: error;
- `clear_file_content` with no recorded prior content: Python opens the file
  in `'w'` mode (truncating/creating it) and then `f.write(None)` raises
  `TypeError`, caught as an error result — the truncation side effect
  remains;
- `apply_code_change`: rereads the file through `read_file` (an error there
  surfaces as a `KeyError` on `['content']`, caught as an error result) and
  swaps the recorded fragments, failing when the swapped fragment is absent. -/
def undoLastAction (st : AgentState) : ToolResult × AgentState :=
  match st.history with
  | [] => (⟨.error, "No actions to undo."⟩, st)
  | rec :: rest =>
    let st1 : AgentState := { st with history := rest }
    match rec with
    | .writeRec p none =>
      match st1.fs p with
      | none => (⟨.error, "Error undoing action write_file on " ++ p⟩, st1)
      | some _ =>
        (⟨.success, "Removed newly created file: " ++ p⟩, { st1 with fs := fsRemove st1.fs p })
    | .writeRec p (some c) =>
      (⟨.success, "Restored " ++ p ++ " to its previous content."⟩,
        { st1 with fs := fsSet st1.fs p c })
    | .deleteRec p (some c) =>
      (⟨.success, "Restored deleted file: " ++ p⟩, { st1 with fs := fsSet st1.fs p c })
    | .deleteRec p none =>
      (⟨.error, "Could not restore deleted file " ++ p ++ ": No original content found."⟩, st1)
    | .clearRec p (some c) =>
      (⟨.success, "Restored content of " ++ p ++ "."⟩, { st1 with fs := fsSet st1.fs p c })
    | .clearRec p none =>
      (⟨.error, "Error undoing action clear_file_content on " ++ p⟩,
        { st1 with fs := fsSet st1.fs p "" })
    | .applyRec p oldCode newCode =>
      match read_file st1.fs p with
      | none => (⟨.error, "Error undoing action apply_code_change on " ++ p⟩, st1)
      | some current =>
        if pyContains current newCode then
          (⟨.success, "Undid code change in " ++ p ++ "."⟩,
            { st1 with fs := fsSet st1.fs p (pyReplaceFirst current newCode oldCode) })
        else
          (⟨.error, "Could not undo code change in " ++ p ++
            ": Current content does not match expected state for undo."⟩, st1)

/-! Agent dispatch and control loop (`agent.py`).  The reasoning
collaborator's reply is an external string; `Agent.act` JSON-parses it.  The
parse outcome is embedded as the `Instruction` sum below: the JSON layer
itself is external, and each constructor corresponds to one branch of the
parse in `Agent.act` (`json.JSONDecodeError`, a `text` key, valid JSON with
neither key, or a `tool_calls` list). -/

/-- A tool call as produced by the reasoning collaborator, restricted to the
registered tools the proved properties exercise. -/
inductive ToolCall where
  | readFile (filepath : String)
  | writeFile (filepath content : String)
  | deleteFile (filepath : String)
  | clearFileContent (filepath : String)
  | applyCodeChange (filepath oldCode newCode : String)
  | runCommand (command : String)
  | undoCall
deriving DecidableEq

/-- The `function.name` string of a tool call, as matched by the Python
dispatch. -/
def ToolCall.pyName : ToolCall → String
  | .readFile _ => "read_file"
  | .writeFile _ _ => "write_file"
  | .deleteFile _ => "delete_file"
  | .clearFileContent _ => "clear_file_content"
  | .applyCodeChange _ _ _ => "apply_code_change"
  | .runCommand _ => "run_command"
  | .undoCall => "undo_last_action"

/-- The fixed list of operation names gated behind user confirmation in
`Agent.act` (agent.py line 117), copied verbatim from the source. -/
def destructiveTools : List String :=
  ["write_file", "delete_file", "clear_file_content", "apply_code_change",
   "edit_file", "edit_notebook", "run_terminal_cmd"]

/-- The keys of `ToolExecutionSystem.available_tools`, copied verbatim from
the source. -/
def availableToolNames : List String :=
  ["read_file", "write_file", "delete_file", "clear_file_content",
   "run_git_command", "run_command", "list_directory_contents", "search_files",
   "run_linter", "run_tests", "apply_code_change", "undo_last_action",
   "get_memory_status", "search_memory_patterns"]

/-- Parse outcome of one reasoning-collaborator reply inside `Agent.act`. -/
inductive Instruction where
  | unparsable (raw : String)
  | textReply (t : String)
  | otherJson (raw : String)
  | toolCalls (calls : List ToolCall)
deriving DecidableEq

/-- True for a reply that fails JSON decoding (Python `json.JSONDecodeError`). -/
def Instruction.isUnparsable : Instruction → Bool
  | .unparsable _ => true
  | _ => false

/-- The `type` tag attached to observations inside `Agent.act` and to the
terminal result of `Agent.run`. -/
inductive OType where
  | textResponse
  | cancelledKind
  | toolExecution
  | toolError
  | budgetExceeded
deriving DecidableEq

/-- One observation as classified by `Agent.run`: the `status` and `type`
keys plus the message. -/
structure Obs where
  status : RStatus
  otype : OType
  message : String
deriving DecidableEq

/-- External collaborators of the dispatcher: the confirmation approver
(`terminal_interface.confirm_action`), answering the n-th confirmation
question asked this session, and the timestamp source used for backup
names. -/
structure Env where
  approve : Nat → Bool
  ts : String

/-- Models `ToolExecutionSystem.execute_tool_from_dict` for the embedded
tool calls.  `run_command` hands the command to the external shell (recorded
in `commandsRun`) and reports success with the subprocess output; read-only
tools leave the state unchanged. -/
def executeTool (env : Env) (st : AgentState) : ToolCall → ToolResult × AgentState
  | .readFile p =>
    match read_file st.fs p with
    | some _ => (⟨.success, ""⟩, st)
    | none => (⟨.error, "File not found: " ++ p⟩, st)
  | .writeFile p c => wrappedWriteFile st p c env.ts
  | .deleteFile p => wrappedDeleteFile st p env.ts
  | .clearFileContent p => wrappedClearFileContent st p env.ts
  | .applyCodeChange p oldCode newCode => wrappedApplyCodeChange st p oldCode newCode env.ts
  | .runCommand cmd =>
    (⟨.success, "Command executed."⟩, { st with commandsRun := st.commandsRun ++ [cmd] })
  | .undoCall => undoLastAction st

/-- Models `Agent.act`.  A text reply (including anything that fails to
parse) is displayed and returned as a `text_response` success.  For a tool
call list only the first call is executed; when its name is in
`destructiveTools` the approver is consulted first and a negative answer
returns a `cancelled` observation with no tool execution.  Execution is then
guarded by membership in `available_tools`. -/
def act (env : Env) (st : AgentState) : Instruction → Obs × AgentState
  | .unparsable raw => (⟨.success, .textResponse, raw⟩, st)
  | .textReply t => (⟨.success, .textResponse, t⟩, st)
  | .otherJson raw => (⟨.success, .textResponse, raw⟩, st)
  | .toolCalls [] => (⟨.success, .textResponse, ""⟩, st)
  | .toolCalls (tc :: _) =>
    if destructiveTools.contains tc.pyName then
      let answer := env.approve st.confirmCount
      let st1 : AgentState := { st with confirmCount := st.confirmCount + 1 }
      if answer then
        if availableToolNames.contains tc.pyName then
          let r := executeTool env st1 tc
          (⟨r.1.status, .toolExecution, r.1.message⟩, r.2)
        else
          (⟨.error, .toolError, "Tool " ++ tc.pyName ++ " not found."⟩, st1)
      else
        (⟨.cancelled, .cancelledKind, "Action cancelled by user."⟩, st1)
    else
      if availableToolNames.contains tc.pyName then
        let r := executeTool env st tc
        (⟨r.1.status, .toolExecution, r.1.message⟩, r.2)
      else
        (⟨.error, .toolError, "Tool " ++ tc.pyName ++ " not found."⟩, st)

/-- The iteration cap set in `Agent.__init__` (`self.max_iterations = 10`). -/
def maxIterations : Nat := 10

/-- Result of one run: the terminal observation, the number of loop
iterations executed, and the final state. -/
structure RunOut where
  result : Obs
  iterations : Nat
  final : AgentState

/-- Models the `while` loop of `Agent.run`.  `replies n` is the reasoning
collaborator's reply on iteration `n` (1-based); the loop body classifies
each observation exactly as the source does: `text_response` and `cancelled`
are terminal, everything else (error or success) feeds the next iteration.
`fuel` is the number of remaining iterations allowed by the
`iteration_count < max_iterations` guard; at zero the loop exits and the
budget-exceeded error result is returned. -/
def runLoop (env : Env) (replies : Nat → Instruction) :
    AgentState → Nat → Nat → RunOut
  | st, iterCount, 0 =>
    ⟨⟨.error, .budgetExceeded, "Maximum iterations reached"⟩, iterCount, st⟩
  | st, iterCount, fuel + 1 =>
    let ic := iterCount + 1
    let r := act env st (replies ic)
    if r.1.otype = .textResponse then ⟨r.1, ic, r.2⟩
    else if r.1.status = .cancelled then ⟨r.1, ic, r.2⟩
    else runLoop env replies r.2 ic fuel

/-- Models `Agent.run` on a fresh task: iterate up to `maxIterations` times. -/
def run (env : Env) (replies : Nat → Instruction) (st : AgentState) : RunOut :=
  runLoop env replies st 0 maxIterations

/-! Working memory (`working_memory.py`).  Python dictionaries are modelled
as association lists in insertion order: assignment to an existing key
updates in place, a fresh key is appended, and `del`/`pop` removes the
entry.  The MD5 hex digest serves only as a content fingerprint compared for
equality, so it is modelled as the identity fingerprint (an injective
stand-in; the code never inspects digest bytes). -/

/-- Python dictionary lookup `d.get(k)`: the value of the (unique) entry
for `k`, scanning from the front. -/
def alGet {α : Type} : List (String × α) → String → Option α
  | [], _ => none
  | e :: es, k => if e.1 = k then some e.2 else alGet es k

/-- Python dictionary assignment `d[k] = v`: update in place when the key is
present, append otherwise. -/
def alSet {α : Type} (m : List (String × α)) (k : String) (v : α) : List (String × α) :=
  if m.any (fun e => e.1 = k) then
    m.map (fun e => if e.1 = k then (k, v) else e)
  else
    m ++ [(k, v)]

/-- Python `d.pop(k, None)`: remove the entry for `k` when present. -/
def alErase {α : Type} (m : List (String × α)) (k : String) : List (String × α) :=
  m.filter (fun e => ¬ e.1 = k)

/-- Content fingerprint standing in for `hashlib.md5(...).hexdigest()`. -/
def md5Hex (s : String) : String := s

/-- One entry of the bounded change history
(`WorkingMemory.cache_file_content`'s `change_record`). -/
structure ChangeRec where
  timestamp : Nat
  filepath : String
  operation : String
  oldHash : Option String
  newHash : String
  oldSize : Nat
  newSize : Nat
  changeType : String
deriving DecidableEq

/-- The session-scoped working memory state (the fields of
`WorkingMemory.__init__` that the file cache and change tracking touch). -/
structure WM where
  maxFileCache : Nat
  maxChangeHistory : Nat
  fileContents : List (String × String)
  fileHashes : List (String × String)
  fileSizes : List (String × Nat)
  fileTimestamps : List (String × Nat)
  changeHistory : List ChangeRec
  currentChanges : List (String × List ChangeRec)
deriving DecidableEq

/-- A fresh working memory with the given bounds
(`WorkingMemory.__init__(max_file_cache, max_change_history)`). -/
def initWM (maxFileCache maxChangeHistory : Nat) : WM :=
  ⟨maxFileCache, maxChangeHistory, [], [], [], [], [], []⟩

/-- Models `WorkingMemory._determine_change_type`; Python's truthiness test
`not old_content` on a string means the string is empty. -/
def determineChangeType (oldContent newContent : String) : String :=
  if oldContent = "" ∧ ¬ newContent = "" then "file_created"
  else if ¬ oldContent = "" ∧ newContent = "" then "file_cleared"
  else if oldContent.length < newContent.length then "content_added"
  else if newContent.length < oldContent.length then "content_removed"
  else "content_modified"

/-- Appending to a `deque(maxlen=n)`: drop from the left once over `n`. -/
def pushBounded {α : Type} (maxLen : Nat) (l : List α) (x : α) : List α :=
  let l1 := l ++ [x]
  if maxLen < l1.length then l1.drop (l1.length - maxLen) else l1

/-- Models `WorkingMemory._record_change`: push onto the bounded history and
onto the per-file list in `current_changes` (a `defaultdict(list)`). -/
def recordChange (wm : WM) (cr : ChangeRec) : WM :=
  { wm with
    changeHistory := pushBounded wm.maxChangeHistory wm.changeHistory cr,
    currentChanges :=
      alSet wm.currentChanges cr.filepath ((alGet wm.currentChanges cr.filepath).getD [] ++ [cr]) }

/-- Models `WorkingMemory.clear_file_cache` for a single path: drop the
entry from all four cache maps. -/
def clearFileCache (wm : WM) (p : String) : WM :=
  { wm with
    fileContents := alErase wm.fileContents p,
    fileHashes := alErase wm.fileHashes p,
    fileSizes := alErase wm.fileSizes p,
    fileTimestamps := alErase wm.fileTimestamps p }

/-- Stable insertion of an entry into a list sorted by ascending cached
modification time: placed after every entry whose time is not greater. -/
def insertByMtime (x : String × Nat) : List (String × Nat) → List (String × Nat)
  | [] => [x]
  | y :: ys => if x.2 < y.2 then x :: y :: ys else y :: insertByMtime x ys

/-- Stable sort by cached modification time, modelling
`sorted(self.file_timestamps.items(), key=lambda x: x[1])` (Python's sort is
stable; so is left-fold insertion). -/
def sortByMtime (l : List (String × Nat)) : List (String × Nat) :=
  l.foldl (fun acc x => insertByMtime x acc) []

/-- Models `WorkingMemory._manage_cache_size`: when the cache exceeds its
bound, evict the entries with the smallest cached modification times until
back at the bound. -/
def manageCacheSize (wm : WM) : WM :=
  if wm.fileContents.length ≤ wm.maxFileCache then wm
  else
    let filesByAccess := sortByMtime wm.fileTimestamps
    let filesToRemove := filesByAccess.take (wm.fileContents.length - wm.maxFileCache)
    filesToRemove.foldl (fun w e => clearFileCache w e.1) wm

/-- Models `WorkingMemory.cache_file_content`.  `stat` is the
`os.stat` outcome for `filepath` (`some (st_size, st_mtime)` when the path
exists), `now` the `time.time()` value for the change record.  Returns the
`changed` flag with the updated memory.  Note the source reads `old_size`
from `file_sizes` after having already overwritten it, so the recorded
`old_size` equals `new_size`; and a change record is only appended when a
previous content was cached (`old_content is not None`). -/
def cacheFileContent (wm : WM) (filepath content : String) (forceRefresh : Bool)
    (stat : Option (Nat × Nat)) (now : Nat) : Bool × WM :=
  let currentSize := match stat with | some s => s.1 | none => 0
  let contentHash := md5Hex content
  let currentMtime := match stat with | some s => s.2 | none => 0
  if (alGet wm.fileHashes filepath).isNone ∨
      ¬ alGet wm.fileHashes filepath = some contentHash ∨ forceRefresh = true then
    let oldContent := alGet wm.fileContents filepath
    let oldHash := alGet wm.fileHashes filepath
    let wm1 : WM :=
      { wm with
        fileContents := alSet wm.fileContents filepath content,
        fileHashes := alSet wm.fileHashes filepath contentHash,
        fileSizes := alSet wm.fileSizes filepath currentSize,
        fileTimestamps := alSet wm.fileTimestamps filepath currentMtime }
    let wm2 :=
      match oldContent with
      | some oc =>
        recordChange wm1
          ⟨now, filepath, "content_update", oldHash, contentHash,
            (alGet wm1.fileSizes filepath).getD 0, currentSize,
            determineChangeType oc content⟩
      | none => wm1
    (true, manageCacheSize wm2)
  else
    (false, wm)

/-- One file fed to the cache: path, content and the `os.stat` metadata the
filesystem reports for it. -/
structure CacheItem where
  path : String
  content : String
  size : Nat
  mtime : Nat
deriving DecidableEq

/-- Cache a list of files in order (no forced refresh), each observed with
its own stat metadata and timestamp. -/
def cacheAll (wm : WM) : List CacheItem → WM
  | [] => wm
  | it :: rest =>
    cacheAll (cacheFileContent wm it.path it.content false (some (it.size, it.mtime)) it.mtime).2 rest

/-- The working-memory state holding exactly the files of `items`, cached in
order with no change records (the explicit normal form reached by caching
fresh paths into an empty memory). -/
def wmOf (maxFileCache maxChangeHistory : Nat) (items : List CacheItem) : WM :=
  ⟨maxFileCache, maxChangeHistory,
    items.map (fun it => (it.path, it.content)),
    items.map (fun it => (it.path, md5Hex it.content)),
    items.map (fun it => (it.path, it.size)),
    items.map (fun it => (it.path, it.mtime)),
    [], []⟩

/-! Persistent memory (`persistent_memory.py`): the project-pattern store
and its similarity merge.  A pattern payload enters the similarity check
only through its key set (`set(pattern.keys())`), so payloads are modelled
as finite key sets; the JSON persistence layer (`_save_memory`) is external
I/O and outside the model.  The float comparison
`len(intersection)/len(union) >= threshold` is modelled with exact rational
arithmetic. -/

/-- Models `PersistentMemory._patterns_similar`: Jaccard similarity of the
two key sets against the threshold (default 0.8), with the source's guards
returning `false` when either key set is empty. -/
def patternsSimilar (keys1 keys2 : Finset String) (threshold : ℚ) : Bool :=
  if keys1 = ∅ ∨ keys2 = ∅ then false
  else if keys1 ∪ keys2 = ∅ then false
  else decide (threshold ≤ ((keys1 ∩ keys2).card : ℚ) / ((keys1 ∪ keys2).card : ℚ))

/-- One record of `project_patterns` (the fields
`record_project_pattern` creates and mutates). -/
structure PatternRecord where
  timestamp : String
  patternData : Finset String
  filepath : Option String
  context : Finset String
  occurrenceCount : Nat
  lastSeen : Option String
deriving DecidableEq

/-- The merge scan of `record_project_pattern`: walk the per-type list and
bump the first record whose pattern data is similar (threshold 0.8),
returning `none` when no record matches (the loop's `else` clause). -/
def updateFirstSimilar (data : Finset String) (now : String) :
    List PatternRecord → Option (List PatternRecord)
  | [] => none
  | r :: rs =>
    if patternsSimilar data r.patternData (4 / 5) then
      some ({ r with occurrenceCount := r.occurrenceCount + 1, lastSeen := some now } :: rs)
    else
      (updateFirstSimilar data now rs).map (fun l => r :: l)

/-- Models `PersistentMemory.record_project_pattern` on the
`project_patterns` map (pattern type to list of records): ensure the type's
list exists, merge into the first similar record or append a fresh record
with occurrence count 1. -/
def recordProjectPattern (pp : List (String × List PatternRecord)) (ptype : String)
    (data : Finset String) (filepath : Option String) (context : Finset String)
    (now : String) : List (String × List PatternRecord) :=
  let pp1 := if (alGet pp ptype).isSome then pp else alSet pp ptype []
  let lst := (alGet pp1 ptype).getD []
  let newLst :=
    match updateFirstSimilar data now lst with
    | some l => l
    | none => lst ++ [⟨now, data, filepath, context, 1, none⟩]
  alSet pp1 ptype newLst

/-! Basic lemmas about the filesystem model. -/

theorem fsSet_self (fs : FS) (p c : String) : fsSet fs p c p = some c := by
  simp [fsSet]

theorem fsSet_ne (fs : FS) (p c q : String) (h : ¬ q = p) : fsSet fs p c q = fs q := by
  simp [fsSet, h]

theorem fsRemove_self (fs : FS) (p : String) : fsRemove fs p p = none := by
  simp [fsRemove]

theorem backupPath_ne_self (p ts : String) : ¬ backupPath p ts = p := by
  intro h
  have hl := congrArg String.length h
  rw [backupPath, String.length_append, String.length_append] at hl
  have h5 : ".bak.".length = 5 := by decide
  omega

theorem createBackup_self (fs : FS) (p ts : String) : createBackup fs p ts p = fs p := by
  unfold createBackup
  cases h : fs p with
  | none => exact h
  | some c =>
    show fsSet fs (backupPath p ts) c p = some c
    rw [fsSet_ne fs (backupPath p ts) c p (fun hq => backupPath_ne_self p ts hq.symm), h]

theorem read_file_of_some (fs : FS) (p c : String) (h : fs p = some c) :
    read_file fs p = some c := by
  unfold read_file
  rw [h]

/-- C5: when the file exists but its content lacks the `old_code` fragment,
the wrapped `apply_code_change` yields an error result, leaves the target
file's content unchanged, and appends no `ActionRecord` to the Action Log. -/
theorem apply_code_change_missing_fragment_error (st : AgentState)
    (p oldCode newCode ts content : String)
    (hex : st.fs p = some content) (hnc : pyContains content oldCode = false) :
    (wrappedApplyCodeChange st p oldCode newCode ts).1.status = .error ∧
    (wrappedApplyCodeChange st p oldCode newCode ts).2.fs p = st.fs p ∧
    (wrappedApplyCodeChange st p oldCode newCode ts).2.history = st.history := by
  have hb : createBackup st.fs p ts p = some content := by
    rw [createBackup_self, hex]
  have h1 : apply_code_change st.fs p oldCode newCode ts =
      (⟨.error, "Old code not found in " ++ p ++ ". No change applied."⟩,
        createBackup st.fs p ts) := by
    dsimp only [apply_code_change]
    rw [hb]
    dsimp only
    rw [hnc]
    simp
  dsimp only [wrappedApplyCodeChange]
  rw [h1]
  refine ⟨by simp, ?_, by simp⟩
  simpa using hb.trans hex.symm

/-- C5 witness: the spec's concrete scenario — `apply_code_change("m.py",
"OLD", "NEW")` on a file containing `"different"`. -/
theorem apply_code_change_missing_fragment_error_witness :
    (wrappedApplyCodeChange ⟨fsSet fsEmpty "m.py" "different", [], [], 0⟩
      "m.py" "OLD" "NEW" "t").1.status = .error ∧
    (wrappedApplyCodeChange ⟨fsSet fsEmpty "m.py" "different", [], [], 0⟩
      "m.py" "OLD" "NEW" "t").2.fs "m.py" =
      (⟨fsSet fsEmpty "m.py" "different", [], [], 0⟩ : AgentState).fs "m.py" ∧
    (wrappedApplyCodeChange ⟨fsSet fsEmpty "m.py" "different", [], [], 0⟩
      "m.py" "OLD" "NEW" "t").2.history = [] :=
  apply_code_change_missing_fragment_error
    ⟨fsSet fsEmpty "m.py" "different", [], [], 0⟩ "m.py" "OLD" "NEW" "t" "different"
    (by decide) (by decide)

/-- C4: a negative answer from the approver on a destructive tool call
yields a cancelled result, leaves the filesystem untouched (the tool never
executes), and pushes no `ActionRecord`. -/
theorem denied_confirmation_cancels_without_side_effects (env : Env) (st : AgentState)
    (tc : ToolCall) (rest : List ToolCall)
    (hd : destructiveTools.contains tc.pyName = true)
    (hno : env.approve st.confirmCount = false) :
    (act env st (.toolCalls (tc :: rest))).1.status = .cancelled ∧
    (act env st (.toolCalls (tc :: rest))).2.fs = st.fs ∧
    (act env st (.toolCalls (tc :: rest))).2.history = st.history := by
  dsimp only [act]
  rw [hd, hno]
  simp

/-- C4 witness: the approver denies a `write_file` call on an empty state. -/
theorem denied_confirmation_cancels_without_side_effects_witness :
    (act ⟨fun _ => false, "t"⟩ ⟨fsEmpty, [], [], 0⟩
      (.toolCalls [.writeFile "a.txt" "hello"])).1.status = .cancelled ∧
    (act ⟨fun _ => false, "t"⟩ ⟨fsEmpty, [], [], 0⟩
      (.toolCalls [.writeFile "a.txt" "hello"])).2.fs =
      (⟨fsEmpty, [], [], 0⟩ : AgentState).fs ∧
    (act ⟨fun _ => false, "t"⟩ ⟨fsEmpty, [], [], 0⟩
      (.toolCalls [.writeFile "a.txt" "hello"])).2.history = [] :=
  denied_confirmation_cancels_without_side_effects ⟨fun _ => false, "t"⟩
    ⟨fsEmpty, [], [], 0⟩ (.writeFile "a.txt" "hello") [] (by decide) rfl

/-- C2: the shell tool `run_command` is dispatched with no confirmation at
all — even under an approver that denies every request, the command is
handed to the shell (it appears in `commandsRun`), the result is a success,
and the approver is never consulted (`confirmCount` stays 0).  The
confirmation gate of `Agent.act` lists `run_terminal_cmd`, a name under
which no tool is registered, instead of the registered shell tool
`run_command`. -/
theorem run_command_executes_without_confirmation :
    (act ⟨fun _ => false, "t"⟩ ⟨fsEmpty, [], [], 0⟩
      (.toolCalls [.runCommand "rm -rf build"])).1.status = .success ∧
    (act ⟨fun _ => false, "t"⟩ ⟨fsEmpty, [], [], 0⟩
      (.toolCalls [.runCommand "rm -rf build"])).2.commandsRun = ["rm -rf build"] ∧
    (act ⟨fun _ => false, "t"⟩ ⟨fsEmpty, [], [], 0⟩
      (.toolCalls [.runCommand "rm -rf build"])).2.confirmCount = 0 := by
  refine ⟨by decide, by decide, by decide⟩

/-- C10: `undo_last_action` pops the most recent record before attempting
the reversal and never pushes it back, so the Action Log tail is what
remains afterwards whatever the outcome; in particular the two failing
reversals named by the claim (a `delete_file` record with no stored prior
content, and an `apply_code_change` record whose swapped fragment is absent
from the current content) consume the record while reporting an error. -/
theorem undo_consumes_record_even_on_failure (st : AgentState) (r : ActionRecord)
    (rest : List ActionRecord) (h : st.history = r :: rest) :
    (undoLastAction st).2.history = rest ∧
    (∀ p, r = .deleteRec p none → (undoLastAction st).1.status = .error) ∧
    (∀ p oldCode newCode current, r = .applyRec p oldCode newCode →
      read_file st.fs p = some current → pyContains current newCode = false →
      (undoLastAction st).1.status = .error) := by
  refine ⟨?_, ?_, ?_⟩
  · unfold undoLastAction
    rw [h]
    cases r with
    | writeRec p orig =>
      cases orig with
      | none => cases hf : st.fs p <;> simp [hf]
      | some c => rfl
    | deleteRec p orig => cases orig <;> rfl
    | clearRec p orig => cases orig <;> rfl
    | applyRec p oldCode newCode =>
      cases hr : read_file st.fs p with
      | none => simp [hr]
      | some current =>
        by_cases hc : pyContains current newCode = true <;> simp [hr, hc]
  · intro p hp
    subst hp
    unfold undoLastAction
    rw [h]
  · intro p oldCode newCode current hp hr hc
    subst hp
    unfold undoLastAction
    rw [h]
    simp [hr, hc]

/-- C10 witness: a failing undo (deleted file with no recorded content)
still consumes its record, leaving the older record on top. -/
theorem undo_consumes_record_even_on_failure_witness :
    (undoLastAction ⟨fsEmpty, [.deleteRec "g.txt" none, .writeRec "h.txt" none], [], 0⟩).2.history
      = [.writeRec "h.txt" none] ∧
    (undoLastAction ⟨fsEmpty, [.deleteRec "g.txt" none, .writeRec "h.txt" none], [], 0⟩).1.status
      = .error :=
  have hmain := undo_consumes_record_even_on_failure
    ⟨fsEmpty, [.deleteRec "g.txt" none, .writeRec "h.txt" none], [], 0⟩
    (.deleteRec "g.txt" none) [.writeRec "h.txt" none] rfl
  ⟨hmain.1, hmain.2.1 "g.txt" rfl⟩

/-! Lemmas about first-occurrence search and single replacement, feeding the
undo round-trip analysis of `apply_code_change`. -/

theorem firstIdx_le (pat : List Char) : ∀ (s : List Char) (i : Nat),
    firstIdx pat s = some i → i ≤ s.length := by
  intro s
  induction s with
  | nil =>
    intro i h
    unfold firstIdx at h
    split at h
    · injection h with h
      omega
    · simp at h
  | cons c s ih =>
    intro i h
    unfold firstIdx at h
    split at h
    · injection h with h
      simp only [List.length_cons]
      omega
    · cases hj : firstIdx pat s with
      | none => rw [hj] at h; simp at h
      | some j =>
        rw [hj] at h
        simp only [Option.map_some'] at h
        injection h with h
        have hji := ih j hj
        simp only [List.length_cons]
        omega

theorem firstIdx_isPrefixOf (pat : List Char) : ∀ (s : List Char) (i : Nat),
    firstIdx pat s = some i → pat.isPrefixOf (s.drop i) = true := by
  intro s
  induction s with
  | nil =>
    intro i h
    unfold firstIdx at h
    split at h
    next hpre =>
      injection h with h
      have hi : i = 0 := h.symm
      subst hi
      simpa using hpre
    next => simp at h
  | cons c s ih =>
    intro i h
    unfold firstIdx at h
    split at h
    next hpre =>
      injection h with h
      have hi : i = 0 := h.symm
      subst hi
      simpa using hpre
    next =>
      cases hj : firstIdx pat s with
      | none => rw [hj] at h; simp at h
      | some j =>
        rw [hj] at h
        simp only [Option.map_some'] at h
        injection h with h
        have hi : i = j + 1 := h.symm
        subst hi
        simpa using ih j hj

theorem firstIdx_decomp (pat s : List Char) (i : Nat) (h : firstIdx pat s = some i) :
    s = s.take i ++ pat ++ s.drop (i + pat.length) := by
  have hp := firstIdx_isPrefixOf pat s i h
  have hpre : pat <+: s.drop i := List.isPrefixOf_iff_prefix.mp hp
  obtain ⟨t, ht⟩ := hpre
  have ht2 : t = s.drop (i + pat.length) := by
    have hdl : (pat ++ t).drop pat.length = t := List.drop_left pat t
    rw [ht, List.drop_drop] at hdl
    exact hdl.symm
  calc s = s.take i ++ s.drop i := (List.take_append_drop i s).symm
    _ = s.take i ++ (pat ++ t) := by rw [ht]
    _ = s.take i ++ pat ++ s.drop (i + pat.length) := by rw [ht2, List.append_assoc]

theorem pyReplaceFirst_data (s old new : String) (i : Nat)
    (h : firstIdx old.data s.data = some i) :
    (pyReplaceFirst s old new).data =
      s.data.take i ++ new.data ++ s.data.drop (i + old.data.length) := by
  unfold pyReplaceFirst
  rw [h]

/-- Undo of `apply_code_change` restores the original content exactly when
the first occurrence of `new_code` in the changed content sits at the
replacement site. -/
theorem replace_roundtrip (s old new : String) (i : Nat)
    (h1 : strFirstIdx old s = some i)
    (h2 : strFirstIdx new (pyReplaceFirst s old new) = some i) :
    pyReplaceFirst (pyReplaceFirst s old new) new old = s := by
  have h1' : firstIdx old.data s.data = some i := h1
  have hle : i ≤ s.data.length := firstIdx_le old.data s.data i h1'
  have hA : (s.data.take i).length = i := by
    rw [List.length_take]
    omega
  have hout := pyReplaceFirst_data (pyReplaceFirst s old new) new old i h2
  have hNC := pyReplaceFirst_data s old new i h1'
  apply String.ext
  rw [hout, hNC]
  have htake : (s.data.take i ++ new.data ++ s.data.drop (i + old.data.length)).take i
      = s.data.take i := by
    rw [List.append_assoc]
    exact List.take_left' hA
  have hlen2 : (s.data.take i ++ new.data).length = i + new.data.length := by
    rw [List.length_append, hA]
  have hdrop : (s.data.take i ++ new.data ++ s.data.drop (i + old.data.length)).drop
      (i + new.data.length) = s.data.drop (i + old.data.length) :=
    List.drop_left' hlen2
  rw [htake, hdrop]
  exact (firstIdx_decomp old.data s.data i h1').symm

/-! Per-kind perform-then-undo lemmas for the wrapped destructive tools. -/

theorem write_then_undo (st : AgentState) (p c ts : String) :
    (wrappedWriteFile st p c ts).1.status = .success ∧
    (undoLastAction (wrappedWriteFile st p c ts).2).1.status = .success ∧
    (undoLastAction (wrappedWriteFile st p c ts).2).2.fs p = st.fs p := by
  refine ⟨rfl, ?_⟩
  cases h : st.fs p with
  | none =>
    simp [wrappedWriteFile, write_file, undoLastAction, h, fsSet_self, fsRemove_self]
  | some c0 =>
    simp [wrappedWriteFile, write_file, undoLastAction, h, read_file_of_some st.fs p c0 h,
      fsSet_self]

theorem delete_then_undo (st : AgentState) (p ts c0 : String) (h : st.fs p = some c0) :
    (wrappedDeleteFile st p ts).1.status = .success ∧
    (undoLastAction (wrappedDeleteFile st p ts).2).1.status = .success ∧
    (undoLastAction (wrappedDeleteFile st p ts).2).2.fs p = st.fs p := by
  have hb : createBackup st.fs p ts p = some c0 := by rw [createBackup_self, h]
  simp [wrappedDeleteFile, delete_file, undoLastAction, hb, h,
    read_file_of_some st.fs p c0 h, fsSet_self]

theorem clear_then_undo (st : AgentState) (p ts c0 : String) (h : st.fs p = some c0) :
    (wrappedClearFileContent st p ts).1.status = .success ∧
    (undoLastAction (wrappedClearFileContent st p ts).2).1.status = .success ∧
    (undoLastAction (wrappedClearFileContent st p ts).2).2.fs p = st.fs p := by
  simp [wrappedClearFileContent, clear_file_content, undoLastAction, h,
    read_file_of_some st.fs p c0 h, fsSet_self]

theorem apply_then_undo (st : AgentState) (p oldCode newCode ts content : String) (i : Nat)
    (h : st.fs p = some content)
    (h1 : strFirstIdx oldCode content = some i)
    (h2 : strFirstIdx newCode (pyReplaceFirst content oldCode newCode) = some i) :
    (wrappedApplyCodeChange st p oldCode newCode ts).1.status = .success ∧
    (undoLastAction (wrappedApplyCodeChange st p oldCode newCode ts).2).1.status = .success ∧
    (undoLastAction (wrappedApplyCodeChange st p oldCode newCode ts).2).2.fs p = st.fs p := by
  have hb : createBackup st.fs p ts p = some content := by rw [createBackup_self, h]
  have h1' : firstIdx oldCode.data content.data = some i := h1
  have h2' : firstIdx newCode.data (pyReplaceFirst content oldCode newCode).data = some i := h2
  have hcont : pyContains content oldCode = true := by
    unfold pyContains
    rw [h1']
    rfl
  have hcont2 : pyContains (pyReplaceFirst content oldCode newCode) newCode = true := by
    unfold pyContains
    rw [h2']
    rfl
  have hrt := replace_roundtrip content oldCode newCode i h1 h2
  simp [wrappedApplyCodeChange, apply_code_change, undoLastAction, hb, hcont, hcont2,
    read_file_of_some, fsSet_self, hrt, h]

/-- C1 counterexample: `apply_code_change` on a file containing `"N OLD"`
with `old_code = "OLD"`, `new_code = "N"` succeeds and yields `"N N"`; the
undo then replaces the *first* `"N"` (not the inserted one), reports
success, and leaves `"OLD N"` — not the pre-action content `"N OLD"`. -/
theorem apply_undo_restores_wrong_content :
    (wrappedApplyCodeChange ⟨fsSet fsEmpty "m.py" "N OLD", [], [], 0⟩
      "m.py" "OLD" "N" "t").1.status = .success ∧
    (undoLastAction (wrappedApplyCodeChange ⟨fsSet fsEmpty "m.py" "N OLD", [], [], 0⟩
      "m.py" "OLD" "N" "t").2).1.status = .success ∧
    (undoLastAction (wrappedApplyCodeChange ⟨fsSet fsEmpty "m.py" "N OLD", [], [], 0⟩
      "m.py" "OLD" "N" "t").2).2.fs "m.py" = some "OLD N" ∧
    ¬ (undoLastAction (wrappedApplyCodeChange ⟨fsSet fsEmpty "m.py" "N OLD", [], [], 0⟩
      "m.py" "OLD" "N" "t").2).2.fs "m.py" = some "N OLD" := by
  refine ⟨by decide, by decide, by decide, by decide⟩

/-- C1 (amended): perform-then-undo restores the target file to its exact
pre-action content for `write_file` unconditionally (removing the file when
it was newly created, i.e. the pre-action content is `none`), for
`delete_file` and `clear_file_content` whenever the target file existed
beforehand, and for `apply_code_change` whenever the first occurrence of
`new_code` in the post-change content is at the replacement site. -/
theorem perform_then_undo_restores :
    (∀ (st : AgentState) (p c ts : String),
      (wrappedWriteFile st p c ts).1.status = .success ∧
      (undoLastAction (wrappedWriteFile st p c ts).2).1.status = .success ∧
      (undoLastAction (wrappedWriteFile st p c ts).2).2.fs p = st.fs p) ∧
    (∀ (st : AgentState) (p ts c0 : String), st.fs p = some c0 →
      (wrappedDeleteFile st p ts).1.status = .success ∧
      (undoLastAction (wrappedDeleteFile st p ts).2).1.status = .success ∧
      (undoLastAction (wrappedDeleteFile st p ts).2).2.fs p = st.fs p) ∧
    (∀ (st : AgentState) (p ts c0 : String), st.fs p = some c0 →
      (wrappedClearFileContent st p ts).1.status = .success ∧
      (undoLastAction (wrappedClearFileContent st p ts).2).1.status = .success ∧
      (undoLastAction (wrappedClearFileContent st p ts).2).2.fs p = st.fs p) ∧
    (∀ (st : AgentState) (p oldCode newCode ts content : String) (i : Nat),
      st.fs p = some content →
      strFirstIdx oldCode content = some i →
      strFirstIdx newCode (pyReplaceFirst content oldCode newCode) = some i →
      (wrappedApplyCodeChange st p oldCode newCode ts).1.status = .success ∧
      (undoLastAction (wrappedApplyCodeChange st p oldCode newCode ts).2).1.status = .success ∧
      (undoLastAction (wrappedApplyCodeChange st p oldCode newCode ts).2).2.fs p = st.fs p) :=
  ⟨write_then_undo, delete_then_undo, clear_then_undo, apply_then_undo⟩

/-- C1 witness: the four amended conjuncts at concrete inputs — the spec's
`write_file("a.txt", "hello")` then undo scenario, a delete, a clear, and a
code change whose `new_code` first occurs at the replacement site. -/
theorem perform_then_undo_restores_witness :
    ((undoLastAction (wrappedWriteFile ⟨fsEmpty, [], [], 0⟩ "a.txt" "hello" "t").2).2.fs "a.txt"
      = none) ∧
    ((undoLastAction (wrappedDeleteFile ⟨fsSet fsEmpty "b.txt" "data", [], [], 0⟩
      "b.txt" "t").2).2.fs "b.txt" = some "data") ∧
    ((undoLastAction (wrappedClearFileContent ⟨fsSet fsEmpty "c.txt" "keep", [], [], 0⟩
      "c.txt" "t").2).2.fs "c.txt" = some "keep") ∧
    ((undoLastAction (wrappedApplyCodeChange ⟨fsSet fsEmpty "d.py" "x OLD y", [], [], 0⟩
      "d.py" "OLD" "NEW" "t").2).2.fs "d.py" = some "x OLD y") := by
  have h := perform_then_undo_restores
  refine ⟨?_, ?_, ?_, ?_⟩
  · exact ((h.1 ⟨fsEmpty, [], [], 0⟩ "a.txt" "hello" "t").2.2).trans (by decide)
  · exact ((h.2.1 ⟨fsSet fsEmpty "b.txt" "data", [], [], 0⟩ "b.txt" "t" "data"
      (by decide)).2.2).trans (by decide)
  · exact ((h.2.2.1 ⟨fsSet fsEmpty "c.txt" "keep", [], [], 0⟩ "c.txt" "t" "keep"
      (by decide)).2.2).trans (by decide)
  · exact ((h.2.2.2 ⟨fsSet fsEmpty "d.py" "x OLD y", [], [], 0⟩ "d.py" "OLD" "NEW" "t"
      "x OLD y" 2 (by decide) (by decide) (by decide)).2.2).trans (by decide)

/-! Control-loop lemmas for `Agent.run`. -/

theorem runLoop_iterations_le (env : Env) (replies : Nat → Instruction) :
    ∀ (fuel : Nat) (st : AgentState) (iterCount : Nat),
      (runLoop env replies st iterCount fuel).iterations ≤ iterCount + fuel := by
  intro fuel
  induction fuel with
  | zero =>
    intro st ic
    simp [runLoop]
  | succ n ih =>
    intro st ic
    unfold runLoop
    dsimp only
    split
    · dsimp only
      omega
    · split
      · dsimp only
        omega
      · have h := ih (act env st (replies (ic + 1))).2 (ic + 1)
        omega

theorem runLoop_step_unparsable (env : Env) (replies : Nat → Instruction)
    (st : AgentState) (ic fuel : Nat) (raw : String)
    (hre : replies (ic + 1) = .unparsable raw) :
    runLoop env replies st ic (fuel + 1) = ⟨⟨.success, .textResponse, raw⟩, ic + 1, st⟩ := by
  unfold runLoop
  dsimp only
  rw [hre]
  simp [act]

/-- C3 counterexample: with the reasoning collaborator returning plain
prose (not JSON) on every round, `Agent.run` does *not* end with a
budget-exceeded error — it returns after the first iteration with a
success/text-response result (the source treats a `json.JSONDecodeError`
as a final textual answer). -/
theorem unparsable_reply_returns_text_success :
    ¬ (run ⟨fun _ => false, "t"⟩ (fun _ => .unparsable "Here is my plan in plain prose.")
        ⟨fsEmpty, [], [], 0⟩).result.status = .error ∧
    (run ⟨fun _ => false, "t"⟩ (fun _ => .unparsable "Here is my plan in plain prose.")
        ⟨fsEmpty, [], [], 0⟩).result.status = .success ∧
    (run ⟨fun _ => false, "t"⟩ (fun _ => .unparsable "Here is my plan in plain prose.")
        ⟨fsEmpty, [], [], 0⟩).result.otype = .textResponse ∧
    (run ⟨fun _ => false, "t"⟩ (fun _ => .unparsable "Here is my plan in plain prose.")
        ⟨fsEmpty, [], [], 0⟩).iterations = 1 := by
  refine ⟨by decide, by decide, by decide, by decide⟩

/-- C3 (amended): for every reply stream `Agent.run` performs at most
`max_iterations` loop iterations; but a round whose reply is unparsable
text is treated as a final text answer, so when the collaborator returns
unparsable text on every round the run ends on the *first* iteration with
status success and type `text_response`, not with the budget-exceeded
error (that error needs every round to produce a non-terminal tool
observation). -/
theorem run_terminates_within_budget (env : Env) (replies : Nat → Instruction)
    (st : AgentState) :
    (run env replies st).iterations ≤ maxIterations ∧
    ((∀ n, (replies n).isUnparsable = true) →
      (run env replies st).result.status = .success ∧
      (run env replies st).result.otype = .textResponse ∧
      (run env replies st).iterations = 1) := by
  constructor
  · have h := runLoop_iterations_le env replies maxIterations st 0
    simpa using h
  · intro hall
    have h1 := hall 1
    cases hre : replies 1 with
    | unparsable raw =>
      have hstep := runLoop_step_unparsable env replies st 0 9 raw hre
      unfold run
      rw [show maxIterations = 9 + 1 from rfl, hstep]
      exact ⟨rfl, rfl, rfl⟩
    | textReply t => rw [hre] at h1; simp [Instruction.isUnparsable] at h1
    | otherJson raw => rw [hre] at h1; simp [Instruction.isUnparsable] at h1
    | toolCalls calls => rw [hre] at h1; simp [Instruction.isUnparsable] at h1

/-- C3 witness: the amended theorem applied to a collaborator that always
answers with unparsable prose. -/
theorem run_terminates_within_budget_witness :
    (run ⟨fun _ => true, "t"⟩ (fun _ => .unparsable "done") ⟨fsEmpty, [], [], 0⟩).iterations
      ≤ maxIterations ∧
    (run ⟨fun _ => true, "t"⟩ (fun _ => .unparsable "done")
      ⟨fsEmpty, [], [], 0⟩).result.status = .success ∧
    (run ⟨fun _ => true, "t"⟩ (fun _ => .unparsable "done")
      ⟨fsEmpty, [], [], 0⟩).result.otype = .textResponse ∧
    (run ⟨fun _ => true, "t"⟩ (fun _ => .unparsable "done") ⟨fsEmpty, [], [], 0⟩).iterations = 1 :=
  have h := run_terminates_within_budget ⟨fun _ => true, "t"⟩ (fun _ => .unparsable "done")
    ⟨fsEmpty, [], [], 0⟩
  ⟨h.1, h.2 (fun _ => rfl)⟩

/-! Association-list and sorting lemmas for the working-memory proofs. -/

theorem alGet_append_fresh {α : Type} (k : String) (v : α) : ∀ (m : List (String × α)),
    ¬ (m.any fun e => decide (e.1 = k)) = true → alGet (m ++ [(k, v)]) k = some v := by
  intro m
  induction m with
  | nil => intro _; simp [alGet]
  | cons e es ih =>
    intro h
    simp only [List.any_cons, Bool.or_eq_true, decide_eq_true_eq] at h
    push_neg at h
    simp only [List.cons_append, alGet]
    rw [if_neg h.1]
    exact ih (by simpa using h.2)

theorem alGet_replace {α : Type} (k : String) (v : α) : ∀ (m : List (String × α)),
    (m.any fun e => decide (e.1 = k)) = true →
    alGet (m.map (fun e => if e.1 = k then (k, v) else e)) k = some v := by
  intro m
  induction m with
  | nil => intro h; simp at h
  | cons e es ih =>
    intro h
    by_cases he : e.1 = k
    · simp [alGet, he]
    · have h2 : (es.any fun e => decide (e.1 = k)) = true := by
        simp only [List.any_cons, Bool.or_eq_true, decide_eq_true_eq] at h
        rcases h with h | h
        · exact absurd h he
        · exact h
      simp only [List.map_cons, if_neg he, alGet]
      exact ih h2

theorem alGet_alSet_self {α : Type} (k : String) (v : α) (m : List (String × α)) :
    alGet (alSet m k v) k = some v := by
  unfold alSet
  split
  next hany => exact alGet_replace k v m hany
  next hany => exact alGet_append_fresh k v m hany

theorem alSet_length_le {α : Type} (m : List (String × α)) (k : String) (v : α) :
    (alSet m k v).length ≤ m.length + 1 := by
  unfold alSet
  split
  · simp
  · simp

theorem alGet_map_fresh {α : Type} (f : CacheItem → α) (p : String) :
    ∀ (L : List CacheItem), ¬ p ∈ L.map (fun j => j.path) →
      alGet (L.map (fun j => (j.path, f j))) p = none := by
  intro L
  induction L with
  | nil => intro _; rfl
  | cons e es ih =>
    intro h
    simp only [List.map_cons, List.mem_cons] at h
    push_neg at h
    simp only [List.map_cons, alGet]
    rw [if_neg (fun he => h.1 he.symm)]
    exact ih (by simpa using h.2)

theorem alSet_map_fresh {α : Type} (f : CacheItem → α) (L : List CacheItem) (p : String) (v : α)
    (hfresh : ¬ p ∈ L.map (fun j => j.path)) :
    alSet (L.map (fun j => (j.path, f j))) p v = L.map (fun j => (j.path, f j)) ++ [(p, v)] := by
  have hany : ¬ ((L.map (fun j => (j.path, f j))).any (fun e => e.1 = p) = true) := by
    intro hany
    rw [List.any_eq_true] at hany
    obtain ⟨x, hx, hxp⟩ := hany
    rw [List.mem_map] at hx
    obtain ⟨j, hj, hxe⟩ := hx
    subst hxe
    rw [decide_eq_true_eq] at hxp
    exact hfresh (List.mem_map.mpr ⟨j, hj, hxp⟩)
  unfold alSet
  rw [if_neg hany]

theorem alErase_of_forall {α : Type} (k : String) (m : List (String × α))
    (h : ∀ y ∈ m, ¬ y.1 = k) : alErase m k = m := by
  unfold alErase
  apply List.filter_eq_self.mpr
  intro a ha
  simpa using h a ha

theorem alErase_head {α : Type} (k : String) (v : α) (m : List (String × α))
    (h : ∀ y ∈ m, ¬ y.1 = k) : alErase ((k, v) :: m) k = m := by
  have h0 : alErase ((k, v) :: m) k = alErase m k := by
    simp [alErase]
  rw [h0, alErase_of_forall k m h]

theorem alErase_map_head {α : Type} (f : CacheItem → α) (e : CacheItem) (es : List CacheItem)
    (hfresh : ¬ e.path ∈ es.map (fun j => j.path)) :
    alErase ((e :: es).map (fun j => (j.path, f j))) e.path = es.map (fun j => (j.path, f j)) := by
  rw [List.map_cons]
  apply alErase_head
  intro y hy
  simp only [List.mem_map] at hy
  obtain ⟨j, hj, rfl⟩ := hy
  intro hyk
  exact hfresh (by simp only [List.mem_map]; exact ⟨j, hj, hyk⟩)

theorem insertByMtime_append (x : String × Nat) : ∀ (acc : List (String × Nat)),
    (∀ y ∈ acc, ¬ x.2 < y.2) → insertByMtime x acc = acc ++ [x] := by
  intro acc
  induction acc with
  | nil => intro _; rfl
  | cons y ys ih =>
    intro h
    unfold insertByMtime
    rw [if_neg (h y (by simp))]
    rw [ih (fun z hz => h z (by simp [hz]))]
    simp

theorem sortByMtime_sorted_aux : ∀ (l acc : List (String × Nat)),
    (∀ y ∈ acc, ∀ x ∈ l, y.2 ≤ x.2) →
    l.Pairwise (fun a b => a.2 < b.2) →
    l.foldl (fun acc x => insertByMtime x acc) acc = acc ++ l := by
  intro l
  induction l with
  | nil => intro acc _ _; simp
  | cons x xs ih =>
    intro acc hle hpw
    simp only [List.foldl_cons]
    rw [insertByMtime_append x acc
      (fun y hy => Nat.not_lt.mpr (hle y hy x (by simp)))]
    rw [ih (acc ++ [x]) ?hle2 (List.Pairwise.of_cons hpw)]
    · simp
    · intro y hy z hz
      rcases List.mem_append.mp hy with hya | hyx
      · exact hle y hya z (by simp [hz])
      · have hyx2 : y = x := by simpa using hyx
        subst hyx2
        exact Nat.le_of_lt ((List.pairwise_cons.mp hpw).1 z hz)

theorem sortByMtime_sorted_id (l : List (String × Nat))
    (h : l.Pairwise (fun a b => a.2 < b.2)) : sortByMtime l = l := by
  unfold sortByMtime
  rw [sortByMtime_sorted_aux l [] (by intro y hy; simp at hy) h]
  simp

theorem manageCacheSize_id (wm : WM) (h : wm.fileContents.length ≤ wm.maxFileCache) :
    manageCacheSize wm = wm := by
  unfold manageCacheSize
  rw [if_pos h]

theorem foldl_clearFileCache_changeHistory : ∀ (l : List (String × Nat)) (w : WM),
    (l.foldl (fun w e => clearFileCache w e.1) w).changeHistory = w.changeHistory := by
  intro l
  induction l with
  | nil => intro w; rfl
  | cons e es ih =>
    intro w
    simp only [List.foldl_cons]
    rw [ih]
    rfl

theorem manageCacheSize_changeHistory (wm : WM) :
    (manageCacheSize wm).changeHistory = wm.changeHistory := by
  unfold manageCacheSize
  split
  · rfl
  · exact foldl_clearFileCache_changeHistory _ _

/-- C6 (amended): when `cache_file_content` detects a change *and a previous
content was cached for the path*, it classifies the transition with
`_determine_change_type` (`file_created` when the cached prior content is the
empty string and the new one is not, `file_cleared` when the prior is
nonempty and the new is empty, `content_added`/`content_removed` by length
comparison, else `content_modified`) and appends the `ChangeRecord` to the
bounded history; but on the *first* caching of a filepath (no prior cached
content) the change is detected and the entry stored with **no**
`ChangeRecord` appended. -/
theorem cache_change_classification :
    (∀ (wm : WM) (p content : String) (force : Bool) (stat : Option (Nat × Nat)) (now : Nat)
        (oc : String),
      alGet wm.fileContents p = some oc →
      (¬ alGet wm.fileHashes p = some (md5Hex content) ∨ force = true) →
      (cacheFileContent wm p content force stat now).1 = true ∧
      (cacheFileContent wm p content force stat now).2.changeHistory =
        pushBounded wm.maxChangeHistory wm.changeHistory
          ⟨now, p, "content_update", alGet wm.fileHashes p, md5Hex content,
            (match stat with | some s => s.1 | none => 0),
            (match stat with | some s => s.1 | none => 0),
            determineChangeType oc content⟩) ∧
    (∀ (wm : WM) (p content : String) (force : Bool) (stat : Option (Nat × Nat)) (now : Nat),
      alGet wm.fileContents p = none → alGet wm.fileHashes p = none →
      (cacheFileContent wm p content force stat now).1 = true ∧
      (cacheFileContent wm p content force stat now).2.changeHistory = wm.changeHistory) := by
  constructor
  · intro wm p content force stat now oc hoc hchg
    unfold cacheFileContent
    dsimp only
    rw [if_pos (Or.inr hchg), hoc]
    refine ⟨rfl, ?_⟩
    rw [manageCacheSize_changeHistory]
    simp [recordChange, alGet_alSet_self]
  · intro wm p content force stat now hoc hh
    unfold cacheFileContent
    dsimp only
    rw [if_pos (Or.inl (by rw [hh]; rfl)), hoc]
    refine ⟨rfl, ?_⟩
    rw [manageCacheSize_changeHistory]

/-- C6 counterexample: the very first caching of a path is a detected
change (`changed = true`) with no prior content, yet no `ChangeRecord` is
appended — the change history stays empty, against the claim that every
detected change (including the first) appends a record. -/
theorem first_cache_appends_no_change_record :
    (cacheFileContent (initWM 50 100) "x.py" "def f(): pass" false (some (13, 5)) 5).1 = true ∧
    (cacheFileContent (initWM 50 100) "x.py" "def f(): pass" false
      (some (13, 5)) 5).2.changeHistory = [] :=
  ⟨by decide, by decide⟩

/-- C6 witness: recaching `"x.py"` with new content appends the classified
record; first-time caching appends nothing. -/
theorem cache_change_classification_witness :
    ((cacheFileContent (cacheFileContent (initWM 50 100) "x.py" "v1" false (some (2, 1)) 1).2
      "x.py" "longer" false (some (6, 3)) 3).1 = true ∧
    (cacheFileContent (cacheFileContent (initWM 50 100) "x.py" "v1" false (some (2, 1)) 1).2
      "x.py" "longer" false (some (6, 3)) 3).2.changeHistory =
      pushBounded
        (cacheFileContent (initWM 50 100) "x.py" "v1" false (some (2, 1)) 1).2.maxChangeHistory
        (cacheFileContent (initWM 50 100) "x.py" "v1" false (some (2, 1)) 1).2.changeHistory
        ⟨3, "x.py", "content_update",
          alGet (cacheFileContent (initWM 50 100) "x.py" "v1" false
            (some (2, 1)) 1).2.fileHashes "x.py",
          md5Hex "longer", 6, 6, determineChangeType "v1" "longer"⟩) ∧
    ((cacheFileContent (initWM 50 100) "y.py" "c0" false none 0).1 = true ∧
    (cacheFileContent (initWM 50 100) "y.py" "c0" false none 0).2.changeHistory =
      (initWM 50 100).changeHistory) :=
  ⟨cache_change_classification.1
      (cacheFileContent (initWM 50 100) "x.py" "v1" false (some (2, 1)) 1).2
      "x.py" "longer" false (some (6, 3)) 3 "v1" (by decide) (Or.inl (by decide)),
    cache_change_classification.2 (initWM 50 100) "y.py" "c0" false none 0
      (by decide) (by decide)⟩

theorem cacheFileContent_hash_after (wm : WM) (p c : String) (stat : Option (Nat × Nat))
    (now : Nat) (hroom : wm.fileContents.length < wm.maxFileCache) :
    alGet (cacheFileContent wm p c false stat now).2.fileHashes p = some (md5Hex c) := by
  unfold cacheFileContent
  dsimp only
  split
  next hcond =>
    have hlen : (alSet wm.fileContents p c).length ≤ wm.maxFileCache := by
      have h1 := alSet_length_le wm.fileContents p c
      omega
    cases hoc : alGet wm.fileContents p with
    | none =>
      dsimp only
      rw [manageCacheSize_id]
      · exact alGet_alSet_self p (md5Hex c) wm.fileHashes
      · exact hlen
    | some oc =>
      dsimp only
      rw [manageCacheSize_id]
      · exact alGet_alSet_self p (md5Hex c) wm.fileHashes
      · exact hlen
  next hcond =>
    push_neg at hcond
    exact hcond.2.1

theorem cacheFileContent_second_noop (wm1 : WM) (p c : String) (stat : Option (Nat × Nat))
    (now : Nat) (hh : alGet wm1.fileHashes p = some (md5Hex c)) :
    cacheFileContent wm1 p c false stat now = (false, wm1) := by
  unfold cacheFileContent
  dsimp only
  split
  next hcond =>
    exfalso
    rcases hcond with h | h | h
    · rw [hh] at h; simp at h
    · exact h hh
    · simp at h
  next => rfl

/-- C7 (amended): caching the same content for the same path twice in
succession without forced refresh yields `changed = false` on the second
call and leaves the memory (in particular the change history) untouched —
provided the cache was strictly below its bound before the first call, so
that the first call's size management cannot evict the entry it just
stored.  (When the bound is already reached, the first call may evict the
very entry being cached and the second call then reports `true` again.) -/
theorem cache_twice_same_content (wm : WM) (p c : String) (stat1 stat2 : Option (Nat × Nat))
    (now1 now2 : Nat) (hroom : wm.fileContents.length < wm.maxFileCache) :
    cacheFileContent (cacheFileContent wm p c false stat1 now1).2 p c false stat2 now2
      = (false, (cacheFileContent wm p c false stat1 now1).2) :=
  cacheFileContent_second_noop _ p c stat2 now2
    (cacheFileContent_hash_after wm p c stat1 now1 hroom)

/-- C7 witness: the spec's scenario — cache `"x.py"` with
`"def f(): pass"`, cache again with identical content: the second call
returns `false` and changes nothing. -/
theorem cache_twice_same_content_witness :
    cacheFileContent (cacheFileContent (initWM 50 100) "x.py" "def f(): pass" false
        (some (13, 5)) 5).2 "x.py" "def f(): pass" false (some (13, 5)) 6
      = (false, (cacheFileContent (initWM 50 100) "x.py" "def f(): pass" false
        (some (13, 5)) 5).2) :=
  cache_twice_same_content (initWM 50 100) "x.py" "def f(): pass"
    (some (13, 5)) (some (13, 5)) 5 6 (by decide)

/-- C7 counterexample: with cache bound 1 and an entry `"a"` of larger
cached modification time already present, caching `"b"` (mtime 0) evicts
`"b"` itself; calling `cache_file_content` for `"b"` again with identical
content then returns `true`, not `false`. -/
theorem cache_twice_can_return_true_after_eviction :
    (cacheFileContent
      (cacheFileContent (cacheFileContent (initWM 1 100) "a" "x" false (some (1, 5)) 5).2
        "b" "y" false none 0).2
      "b" "y" false none 0).1 = true := by
  decide

theorem clearFileCache_head (k mch : Nat) (e : CacheItem) (es : List CacheItem)
    (hfresh : ¬ e.path ∈ es.map (fun j => j.path)) :
    clearFileCache (wmOf k mch (e :: es)) e.path = wmOf k mch es := by
  unfold clearFileCache wmOf
  dsimp only
  rw [alErase_map_head (fun j => j.content) e es hfresh,
    alErase_map_head (fun j => md5Hex j.content) e es hfresh,
    alErase_map_head (fun j => j.size) e es hfresh,
    alErase_map_head (fun j => j.mtime) e es hfresh]

theorem manage_evicts_first (k mch : Nat) (e : CacheItem) (es : List CacheItem)
    (hfresh : ¬ e.path ∈ es.map (fun j => j.path))
    (hlen : (e :: es).length = k + 1)
    (hmono : ((e :: es).map (fun j => j.mtime)).Pairwise (· < ·)) :
    manageCacheSize (wmOf k mch (e :: es)) = wmOf k mch es := by
  have hsort : sortByMtime ((e :: es).map (fun j => (j.path, j.mtime)))
      = (e :: es).map (fun j => (j.path, j.mtime)) := by
    apply sortByMtime_sorted_id
    rw [List.pairwise_map]
    rw [List.pairwise_map] at hmono
    exact hmono
  unfold manageCacheSize
  split
  next hle =>
    exfalso
    dsimp only [wmOf] at hle
    rw [List.length_map, hlen] at hle
    omega
  next hgt =>
    dsimp only [wmOf]
    have hsub : ((e :: es).map (fun j => (j.path, j.content))).length - k = 1 := by
      rw [List.length_map, hlen]
      omega
    rw [hsub, hsort]
    have htake : ((e :: es).map (fun j => (j.path, j.mtime))).take 1
        = [(e.path, e.mtime)] := by
      rw [List.map_cons]
      rfl
    rw [htake]
    simp only [List.foldl_cons, List.foldl_nil]
    exact clearFileCache_head k mch e es hfresh

theorem cache_fresh_pre (k mch : Nat) (L : List CacheItem) (it : CacheItem)
    (hfresh : ¬ it.path ∈ L.map (fun j => j.path)) :
    cacheFileContent (wmOf k mch L) it.path it.content false (some (it.size, it.mtime)) it.mtime
      = (true, manageCacheSize (wmOf k mch (L ++ [it]))) := by
  have hh : alGet (L.map (fun j => (j.path, md5Hex j.content))) it.path = none :=
    alGet_map_fresh (fun j => md5Hex j.content) it.path L hfresh
  have hc : alGet (L.map (fun j => (j.path, j.content))) it.path = none :=
    alGet_map_fresh (fun j => j.content) it.path L hfresh
  have hstate : (⟨k, mch,
      alSet (L.map (fun j => (j.path, j.content))) it.path it.content,
      alSet (L.map (fun j => (j.path, md5Hex j.content))) it.path (md5Hex it.content),
      alSet (L.map (fun j => (j.path, j.size))) it.path it.size,
      alSet (L.map (fun j => (j.path, j.mtime))) it.path it.mtime, [], []⟩ : WM)
      = wmOf k mch (L ++ [it]) := by
    unfold wmOf
    rw [alSet_map_fresh (fun j => j.content) L it.path it.content hfresh,
      alSet_map_fresh (fun j => md5Hex j.content) L it.path (md5Hex it.content) hfresh,
      alSet_map_fresh (fun j => j.size) L it.path it.size hfresh,
      alSet_map_fresh (fun j => j.mtime) L it.path it.mtime hfresh]
    rw [List.map_append, List.map_append, List.map_append, List.map_append]
    rfl
  unfold cacheFileContent
  dsimp only [wmOf]
  rw [if_pos (Or.inl (by rw [hh]; rfl)), hc]
  exact congrArg (fun w => (true, manageCacheSize w)) hstate

theorem cacheAll_append : ∀ (a : List CacheItem) (wm : WM) (b : List CacheItem),
    cacheAll wm (a ++ b) = cacheAll (cacheAll wm a) b := by
  intro a
  induction a with
  | nil => intro wm b; rfl
  | cons x xs ih =>
    intro wm b
    simp only [List.cons_append, cacheAll]
    exact ih _ b

theorem cacheAll_fresh (k mch : Nat) : ∀ (items L : List CacheItem),
    ((L ++ items).map (fun j => j.path)).Nodup →
    L.length + items.length ≤ k →
    cacheAll (wmOf k mch L) items = wmOf k mch (L ++ items) := by
  intro items
  induction items with
  | nil =>
    intro L _ _
    simp [cacheAll]
  | cons it rest ih =>
    intro L hnd hlen
    have hfresh : ¬ it.path ∈ L.map (fun j => j.path) := by
      rw [List.map_append] at hnd
      have hdisj := (List.nodup_append.mp hnd).2.2
      intro hm
      exact hdisj hm (by simp)
    unfold cacheAll
    rw [cache_fresh_pre k mch L it hfresh]
    rw [manageCacheSize_id]
    · have hres := ih (L ++ [it])
        (by simpa [List.append_assoc] using hnd)
        (by simp only [List.length_append, List.length_cons, List.length_singleton,
              List.length_nil] at hlen ⊢; omega)
      rw [hres, List.append_assoc]
      rfl
    · dsimp only [wmOf]
      rw [List.length_map, List.length_append]
      simp only [List.length_cons, List.length_singleton, List.length_nil] at hlen ⊢
      omega

theorem cache_insert_full (k mch : Nat) (L : List CacheItem) (it : CacheItem)
    (hnd : ((L ++ [it]).map (fun j => j.path)).Nodup)
    (hlen : L.length = k)
    (hmono : ((L ++ [it]).map (fun j => j.mtime)).Pairwise (· < ·)) :
    cacheFileContent (wmOf k mch L) it.path it.content false (some (it.size, it.mtime)) it.mtime
      = (true, wmOf k mch ((L ++ [it]).drop 1)) := by
  have hfresh : ¬ it.path ∈ L.map (fun j => j.path) := by
    rw [List.map_append] at hnd
    have hdisj := (List.nodup_append.mp hnd).2.2
    intro hm
    exact hdisj hm (by simp)
  rw [cache_fresh_pre k mch L it hfresh]
  cases hM : L ++ [it] with
  | nil => exact absurd hM (by simp)
  | cons e es =>
    rw [hM] at hnd hmono
    have hfr : ¬ e.path ∈ es.map (fun j => j.path) := by
      rw [List.map_cons] at hnd
      exact (List.nodup_cons.mp hnd).1
    have hln : (e :: es).length = k + 1 := by
      rw [← hM, List.length_append, hlen]
      simp
    rw [manage_evicts_first k mch e es hfr hln hmono]
    rfl

/-- C8: configure the cache bound at `k` and cache `k + 1` distinct
filepaths in order (with strictly increasing on-disk modification times,
matching "cached in order"): exactly `k` entries remain, and the evicted
entry is the least-recently-updated one — the first file cached, the one
with the smallest cached modification time. -/
theorem cache_eviction_least_recently_updated (k mch : Nat) (items : List CacheItem)
    (hlen : items.length = k + 1)
    (hnd : (items.map (fun j => j.path)).Nodup)
    (hmono : (items.map (fun j => j.mtime)).Pairwise (· < ·)) :
    cacheAll (initWM k mch) items = wmOf k mch (items.drop 1) ∧
    (cacheAll (initWM k mch) items).fileContents.length = k ∧
    (cacheAll (initWM k mch) items).fileContents.map Prod.fst
      = (items.drop 1).map (fun j => j.path) := by
  have hne : items ≠ [] := by
    intro h
    subst h
    simp at hlen
  obtain ⟨front, last, hitems⟩ : ∃ front last, items = front ++ [last] :=
    ⟨items.dropLast, items.getLast hne, (List.dropLast_append_getLast hne).symm⟩
  subst hitems
  have hlf : front.length = k := by
    rw [List.length_append] at hlen
    simp only [List.length_singleton] at hlen
    omega
  have hfront_nd : ((([] : List CacheItem) ++ front).map (fun j => j.path)).Nodup := by
    simp only [List.nil_append]
    rw [List.map_append] at hnd
    exact (List.nodup_append.mp hnd).1
  have hmain : cacheAll (initWM k mch) (front ++ [last])
      = wmOf k mch ((front ++ [last]).drop 1) := by
    rw [cacheAll_append front (initWM k mch) [last]]
    have hinit : initWM k mch = wmOf k mch [] := rfl
    rw [hinit, cacheAll_fresh k mch front [] hfront_nd
      (by simp only [List.length_nil]; omega)]
    simp only [List.nil_append]
    show (cacheFileContent (wmOf k mch front) last.path last.content false
      (some (last.size, last.mtime)) last.mtime).2 = _
    rw [cache_insert_full k mch front last hnd hlf hmono]
  refine ⟨hmain, ?_, ?_⟩
  · rw [hmain]
    show (((front ++ [last]).drop 1).map (fun j => (j.path, j.content))).length = k
    rw [List.length_map, List.length_drop, List.length_append]
    simp only [List.length_singleton]
    omega
  · rw [hmain]
    show (((front ++ [last]).drop 1).map (fun j => (j.path, j.content))).map Prod.fst = _
    rw [List.map_map]
    rfl

/-- C8 witness: the spec's scenario — bound 2, files `f1`, `f2`, `f3`
cached in order: `f1` (smallest cached mtime) is evicted, `f2` and `f3`
remain. -/
theorem cache_eviction_least_recently_updated_witness :
    cacheAll (initWM 2 100) [⟨"f1", "c1", 1, 1⟩, ⟨"f2", "c2", 2, 2⟩, ⟨"f3", "c3", 3, 3⟩]
      = wmOf 2 100 [⟨"f2", "c2", 2, 2⟩, ⟨"f3", "c3", 3, 3⟩] ∧
    (cacheAll (initWM 2 100)
      [⟨"f1", "c1", 1, 1⟩, ⟨"f2", "c2", 2, 2⟩, ⟨"f3", "c3", 3, 3⟩]).fileContents.length = 2 ∧
    (cacheAll (initWM 2 100)
      [⟨"f1", "c1", 1, 1⟩, ⟨"f2", "c2", 2, 2⟩,
        ⟨"f3", "c3", 3, 3⟩]).fileContents.map Prod.fst = ["f2", "f3"] :=
  cache_eviction_least_recently_updated 2 100
    [⟨"f1", "c1", 1, 1⟩, ⟨"f2", "c2", 2, 2⟩, ⟨"f3", "c3", 3, 3⟩]
    (by decide) (by decide) (by decide)

theorem updateFirstSimilar_found (data : Finset String) (now : String) :
    ∀ (pre : List PatternRecord) (r : PatternRecord) (post : List PatternRecord),
      (∀ x ∈ pre, patternsSimilar data x.patternData (4 / 5) = false) →
      patternsSimilar data r.patternData (4 / 5) = true →
      updateFirstSimilar data now (pre ++ r :: post) =
        some (pre ++
          { r with occurrenceCount := r.occurrenceCount + 1, lastSeen := some now } :: post) := by
  intro pre
  induction pre with
  | nil =>
    intro r post _ hr
    unfold updateFirstSimilar
    simp [hr]
  | cons x xs ih =>
    intro r post hpre hr
    simp only [List.cons_append]
    unfold updateFirstSimilar
    rw [hpre x (by simp)]
    simp only [Bool.false_eq_true, if_false]
    rw [ih r post (fun y hy => hpre y (by simp [hy])) hr]
    rfl

/-- C9: recording a project pattern whose key set has Jaccard similarity
at least 0.8 with the pattern data of an existing same-type record (the
first such record in the list) increments that record's occurrence count
in place and appends nothing, so the per-type list keeps its length. -/
theorem similar_pattern_merges_without_append (pp : List (String × List PatternRecord))
    (ptype : String) (data : Finset String) (filepath : Option String)
    (context : Finset String) (now : String) (lst : List PatternRecord)
    (pre post : List PatternRecord) (r : PatternRecord)
    (hl : alGet pp ptype = some lst)
    (hsplit : lst = pre ++ r :: post)
    (hpre : ∀ x ∈ pre, patternsSimilar data x.patternData (4 / 5) = false)
    (hr : patternsSimilar data r.patternData (4 / 5) = true) :
    alGet (recordProjectPattern pp ptype data filepath context now) ptype =
      some (pre ++
        { r with occurrenceCount := r.occurrenceCount + 1, lastSeen := some now } :: post) ∧
    ((alGet (recordProjectPattern pp ptype data filepath context now) ptype).getD []).length
      = lst.length := by
  have hupd := updateFirstSimilar_found data now pre r post hpre hr
  have hres : recordProjectPattern pp ptype data filepath context now
      = alSet pp ptype (pre ++
          { r with occurrenceCount := r.occurrenceCount + 1, lastSeen := some now } :: post) := by
    unfold recordProjectPattern
    rw [hl]
    simp only [Option.isSome_some, if_true, Option.getD_some]
    rw [hl]
    simp only [Option.getD_some]
    rw [hsplit, hupd]
  rw [hres]
  refine ⟨alGet_alSet_self ptype _ pp, ?_⟩
  rw [alGet_alSet_self ptype _ pp]
  simp [hsplit]

/-- C9 witness: a pattern with keys `{a, b, c, d, e}` against a stored
record with keys `{a, b, c, d}` (Jaccard 4/5 = 0.8): the record's count
goes from 1 to 2 and the list length stays 1. -/
theorem similar_pattern_merges_without_append_witness :
    alGet (recordProjectPattern
        [("structure", [⟨"t0", {"a", "b", "c", "d"}, none, ∅, 1, none⟩])]
        "structure" {"a", "b", "c", "d", "e"} none ∅ "t1") "structure" =
      some [⟨"t0", {"a", "b", "c", "d"}, none, ∅, 2, some "t1"⟩] ∧
    ((alGet (recordProjectPattern
        [("structure", [⟨"t0", {"a", "b", "c", "d"}, none, ∅, 1, none⟩])]
        "structure" {"a", "b", "c", "d", "e"} none ∅ "t1") "structure").getD []).length = 1 :=
  similar_pattern_merges_without_append
    [("structure", [⟨"t0", {"a", "b", "c", "d"}, none, ∅, 1, none⟩])]
    "structure" {"a", "b", "c", "d", "e"} none ∅ "t1"
    [⟨"t0", {"a", "b", "c", "d"}, none, ∅, 1, none⟩]
    [] [] ⟨"t0", {"a", "b", "c", "d"}, none, ∅, 1, none⟩
    (by decide) rfl (by simp)
    (by
      unfold patternsSimilar
      rw [if_neg (by decide), if_neg (by decide)]
      rw [show (({"a", "b", "c", "d", "e"} : Finset String) ∩ {"a", "b", "c", "d"}).card = 4
          from by decide,
        show (({"a", "b", "c", "d", "e"} : Finset String) ∪ {"a", "b", "c", "d"}).card = 5
          from by decide]
      rw [decide_eq_true_eq]
      norm_num)

end Lumina
